import Mathlib

/-!
# Verification of the Menu Maker helper (`src/main.py`)

Shallow embedding of the two core operations of the repository:

* `async_query_to_df` — the Query Executor: runs a SQL statement via an
  `aiosqlite` connection, normalises a describable result into a list of
  Python dicts (`dict(zip(cols, row))` per row), and for non-describable
  statements commits and returns a single acknowledgement record.
* `generate_menu_metrics_summary` — the Metrics Summarizer: builds a pandas
  `DataFrame` from a list of dicts, selects five fixed continuous columns,
  and computes `describe()` statistics plus `median` and `sum` per column.

Machine floats of the source are modelled by exact rationals (`ℚ`); the
pandas missing-value marker `NaN` is modelled by `Option ℚ` with `none`
for NaN.  The sample standard deviation involves a square root, which is
irrational; since no verified property refers to the numeric value of
`std`, the `std` field of the embedding carries the sample *variance*
(the square of the standard deviation): it is `none` (NaN) in exactly the
same cases as the source's `std`.

Numeric semantics are modelled against pandas ≥ 2.0 (the era of the
repository's dependencies): `DataFrame.describe` uses linear interpolation
for quantiles at fractional rank `p*(n-1)`, and `DataFrame.median` on an
object-dtype column (one containing a Python `str`) raises `TypeError`.
-/

/-- A scalar cell value as produced by JSON input / sqlite rows:
a number (Python int/float, embedded in `ℚ`), a string, or null/NaN. -/
inductive Value where
  | num (q : ℚ)
  | str (s : String)
  | null
deriving Repr, DecidableEq

/-- A Python dict with string keys, as an association list in key-insertion
order.  The dict-building operations below maintain key uniqueness. -/
abbrev Record := List (String × Value)

/-- Python dict insertion `d[k] = v`: if the key is present, its value is
updated in place (position kept); otherwise the pair is appended. -/
def dictSet (r : Record) (k : String) (v : Value) : Record :=
  if r.any (fun kv => kv.1 == k) then
    r.map (fun kv => if kv.1 == k then (k, v) else kv)
  else
    r ++ [(k, v)]

/-- Python `dict(pairs)`: successive insertion of the pairs into an empty
dict.  A repeated key keeps its first-occurrence position and takes the
value of its last occurrence. -/
def dictOfPairs (ps : List (String × Value)) : Record :=
  ps.foldl (fun r kv => dictSet r kv.1 kv.2) []

/-- One step of first-occurrence deduplication: keep a new element,
drop one already seen. -/
def dedupStep (acc : List String) (k : String) : List String :=
  if acc.contains k then acc else acc ++ [k]

/-- The distinct elements of a list in order of first occurrence
(the key order of a Python dict built from these keys). -/
def dedupFirst (l : List String) : List String :=
  l.foldl dedupStep []

/-- Lookup of the value attached to the *last* occurrence of a key in a
raw pair list (this is the value Python dict construction retains). -/
def lastLookup (ps : List (String × Value)) (k : String) : Option Value :=
  ps.reverse.lookup k

/-! ## Query Executor (`async_query_to_df`, src/main.py lines 21–43) -/

/-- One entry of the DB-API cursor `description` tuple; the source uses
`d[0]`, the column name (the remaining six slots are always `None` for
sqlite and are not modelled). -/
structure DescCol where
  name : String
deriving Repr, DecidableEq

/-- The durable contents of the collaborator sqlite store, abstracted as a
bag of rows. -/
abbrev DBState := List (List Value)

/-- One SQL statement as the collaborator store executes it:
`description` is the cursor's result descriptor after `execute` (`none`
for a statement yielding no columns, e.g. a plain mutation), `rows` the
rows `fetchall` would yield, and `effect` the change the statement makes
to the store's contents inside the connection's open transaction. -/
structure Statement where
  description : Option (List DescCol)
  rows : List (List Value)
  effect : DBState → DBState

/-- Python truthiness of `cur.description`: `None` and the empty tuple are
falsy, a nonempty tuple truthy (source line 34: `if cur.description:`). -/
def descTruthy : Option (List DescCol) → Bool
  | none => false
  | some l => !l.isEmpty

/-- `async_query_to_df` (source lines 21–43).  The statement runs inside a
connection scoped to the call (`async with aiosqlite.connect(...)`), whose
exit closes the connection without committing; sqlite rolls back an open
transaction on close.  Hence:
* describable result (`cur.description` truthy): build one dict per row by
  `dict(zip(cols, r))`; the connection is closed with no `commit`, so any
  change the statement made is rolled back — the durable state stays `db`;
* no describable result: `conn.commit()` makes the statement's effect
  durable, and a single acknowledgement record is returned.
Returns the records together with the durable store state after the call. -/
def async_query_to_df (db : DBState) (stmt : Statement) : List Record × DBState :=
  let pending := stmt.effect db
  if descTruthy stmt.description then
    let cols := (stmt.description.getD []).map DescCol.name
    (stmt.rows.map (fun r => dictOfPairs (cols.zip r)), db)
  else
    ([[("message", Value.str "Query executed successfully.")]], pending)

/-! ## Metrics Summarizer (`generate_menu_metrics_summary`, src/main.py 46–92) -/

/-- The exceptions the Summarizer pipeline can raise.
* `keyError`: `df[continuous_cols]` with some requested column absent from
  the frame raises `KeyError` listing the missing labels (pandas message
  "... not in index"); carries the missing column names.
* `typeError`: `df_numeric.median()` on a frame holding an object-dtype
  column (one containing a Python `str`) raises `TypeError` (pandas ≥ 2.0);
  pandas reduction errors carry no record index, so this constructor has
  no index payload.
* `typeMismatch` is the error shape the specification document claims —
  a type error naming the offending field and record index.  The embedded
  pipeline never produces it; it exists so the claim can be stated. -/
inductive PyErr where
  | keyError (missing : List String)
  | typeError
  | typeMismatch (field : String) (index : Nat)
deriving Repr, DecidableEq

/-- `True` exactly on the error shape claimed by the specification for a
non-numeric value: a type error carrying a field name and record index. -/
def PyErr.namesFieldAndIndex : PyErr → Bool
  | .typeMismatch _ _ => true
  | _ => false

/-- The fixed list of analyzed fields (source line 81). -/
def continuous_cols : List String :=
  ["Price", "Avg_Rating", "Total_Orders", "Last_Week_Sales", "Last_Month_Sales"]

/-- The columns of `pd.DataFrame(data)` for a list of dicts: the union of
the records' keys in order of first appearance. -/
def dfColumns (data : List Record) : List String :=
  dedupFirst (data.flatMap (fun r => r.map Prod.fst))

/-- The cell of column `c` in record `r`: a key absent from a record
becomes the missing value `NaN`, modelled by `Value.null`. -/
def cell (r : Record) (c : String) : Value :=
  (r.lookup c).getD Value.null

/-- The full column `c` of `pd.DataFrame(data)`, one cell per record. -/
def column (data : List Record) (c : String) : List Value :=
  data.map (fun r => cell r c)

/-- Whether a cell is a string (making the pandas column object-dtype). -/
def Value.isStr : Value → Bool
  | .str _ => true
  | _ => false

/-- A numeric column as pandas reductions see it: numbers are values,
null/missing cells are `NaN` (`none`).  Only applied when the column
holds no string. -/
def numColumn (data : List Record) (c : String) : List (Option ℚ) :=
  (column data c).map (fun v => match v with
    | .num q => some q
    | _ => none)

/-- One row of the summary frame after `describe().T`, `median`, `sum` and
`reset_index` (source lines 85–90): the dict for one metric.  `q25`, `q50`,
`q75` are the `"25%"`, `"50%"`, `"75%"` keys.  Numeric statistics are
`Option ℚ`, `none` standing for pandas `NaN`; `std` carries the sample
variance (see the file header). -/
structure MetricSummaryRecord where
  metric : String
  count : ℕ
  mean : Option ℚ
  std : Option ℚ
  min : Option ℚ
  q25 : Option ℚ
  q50 : Option ℚ
  q75 : Option ℚ
  max : Option ℚ
  median : Option ℚ
  sum : ℚ
deriving Repr, DecidableEq

/-- Linearly interpolated quantile used by `DataFrame.describe`,
`DataFrame.quantile` and `DataFrame.median` (numpy's default `linear`
method) on the already sorted non-missing values `ys`: with
`h = p*(n-1)`, `i = ⌊h⌋`, `g = h - i`, the result is
`ys[i] + g*(ys[i+1] - ys[i])` (`ys[i]` when `i` is the last index).
`none` on an empty column (pandas `NaN`). -/
def qval (ys : List ℚ) (p : ℚ) : ℚ :=
  let n := ys.length
  let h := p * ((n : ℚ) - 1)
  let i := (⌊h⌋).toNat
  let g := h - (⌊h⌋ : ℚ)
  if i + 1 < n then ys.getD i 0 + g * (ys.getD (i + 1) 0 - ys.getD i 0)
  else ys.getD (n - 1) 0

/-- The quantile of a sorted column: `NaN` (`none`) on an empty column,
the interpolated value otherwise. -/
def quantile (ys : List ℚ) (p : ℚ) : Option ℚ :=
  if ys.isEmpty then none else some (qval ys p)

/-- The statistics `describe().T` plus `median` and `sum` compute for one
numeric column (source lines 85–87), all skipping missing values:
count of non-missing cells; mean; sample variance (ddof = 1, `NaN` when
fewer than two values — standing for the source's `std`, its square
root); min; interpolated quartiles; max; median (= the 50% quantile);
sum (pandas' `sum` of an empty/all-missing column is `0`). -/
def summarizeCol (name : String) (vals : List (Option ℚ)) : MetricSummaryRecord :=
  let xs := vals.filterMap id
  let n := xs.length
  let ys := List.insertionSort (fun a b : ℚ => a ≤ b) xs
  let m : ℚ := xs.sum / (n : ℚ)
  { metric := name
    count := n
    mean := if n = 0 then none else some m
    std := if n < 2 then none
           else some ((xs.map (fun x => (x - m) ^ 2)).sum / ((n : ℚ) - 1))
    min := ys.head?
    q25 := quantile ys (1 / 4)
    q50 := quantile ys (1 / 2)
    q75 := quantile ys (3 / 4)
    max := ys.getLast?
    median := quantile ys (1 / 2)
    sum := xs.sum }

/-- `generate_menu_metrics_summary` (source lines 46–92) as a function
from the input records to either the summary list or the exception the
pipeline raises:
* `df = pd.DataFrame(data)`; `df[continuous_cols]` (line 82) raises
  `KeyError` naming the missing labels when any of the five fixed columns
  is absent from the frame — in particular on an empty input, whose frame
  has no columns at all;
* otherwise, `describe()` (line 85) summarises the numeric columns without
  raising, and `df_numeric.median()` (line 86) raises `TypeError` as soon
  as one of the five columns is object-dtype, i.e. holds a string;
* otherwise one summary dict per analyzed column is returned, in the fixed
  column order. -/
def generate_menu_metrics_summary (data : List Record) :
    Except PyErr (List MetricSummaryRecord) :=
  let cols := dfColumns data
  if continuous_cols.all (fun c => cols.contains c) then
    if continuous_cols.any (fun c => (column data c).any Value.isStr) then
      .error .typeError
    else
      .ok (continuous_cols.map (fun c => summarizeCol c (numColumn data c)))
  else
    .error (.keyError (continuous_cols.filter (fun c => !(cols.contains c))))


/-! ## Association-list (Python dict) lemmas -/

theorem lookup_append (l₁ l₂ : Record) (k : String) :
    (l₁ ++ l₂).lookup k = (l₁.lookup k).or (l₂.lookup k) := by
  induction l₁ with
  | nil => simp
  | cons kv rest ih =>
    obtain ⟨a, b⟩ := kv
    by_cases hk : k = a
    · subst hk; simp [List.lookup]
    · rw [List.cons_append, List.lookup_cons, beq_false_of_ne hk, List.lookup_cons,
        beq_false_of_ne hk, ih]

theorem lookup_eq_none_of_not_mem_keys (r : Record) (k : String)
    (h : k ∉ r.map Prod.fst) : r.lookup k = none := by
  induction r with
  | nil => rfl
  | cons kv rest ih =>
    simp only [List.map_cons, List.mem_cons, not_or] at h
    rw [List.lookup_cons, beq_false_of_ne h.1]
    exact ih h.2

theorem any_key_iff (r : Record) (k : String) :
    (r.any (fun kv => kv.1 == k)) = true ↔ k ∈ r.map Prod.fst := by
  simp [List.any_eq_true, List.mem_map]

theorem keys_dictSet (r : Record) (k : String) (v : Value) :
    (dictSet r k v).map Prod.fst = dedupStep (r.map Prod.fst) k := by
  unfold dictSet dedupStep
  by_cases h : k ∈ r.map Prod.fst
  · rw [if_pos ((any_key_iff r k).mpr h), if_pos (by simpa using h), List.map_map]
    apply List.map_congr_left
    intro kv _
    by_cases hk : kv.1 = k
    · simp [Function.comp, hk]
    · simp [Function.comp, hk]
  · rw [if_neg (fun hc => h ((any_key_iff r k).mp hc)), if_neg (by simpa using h),
      List.map_append]
    rfl

theorem lookup_map_update_self (r : Record) (k : String) (v : Value)
    (h : k ∈ r.map Prod.fst) :
    (r.map (fun kv => if kv.1 == k then (k, v) else kv)).lookup k = some v := by
  induction r with
  | nil => simp at h
  | cons kv rest ih =>
    simp only [List.map_cons]
    by_cases hk : kv.1 = k
    · rw [if_pos (by simpa using hk)]
      simp [List.lookup_cons]
    · rw [if_neg (by simpa using hk), List.lookup_cons,
        beq_false_of_ne (fun hc => hk hc.symm)]
      have h' : k ∈ rest.map Prod.fst := by
        simp only [List.map_cons, List.mem_cons] at h
        tauto
      simpa using ih h'

theorem lookup_map_update_ne (r : Record) (k k' : String) (v : Value)
    (h : k' ≠ k) :
    (r.map (fun kv => if kv.1 == k then (k, v) else kv)).lookup k' = r.lookup k' := by
  induction r with
  | nil => rfl
  | cons kv rest ih =>
    simp only [List.map_cons]
    by_cases hk : kv.1 = k
    · rw [if_pos (by simpa using hk), List.lookup_cons, beq_false_of_ne h,
        List.lookup_cons, beq_false_of_ne (fun hc => h (hc.trans hk))]
      simpa using ih
    · rw [if_neg (by simpa using hk), List.lookup_cons, List.lookup_cons]
      rcases Bool.eq_false_or_eq_true (k' == kv.1) with hb | hb <;> rw [hb]
      simpa using ih

theorem lookup_dictSet (r : Record) (k k' : String) (v : Value) :
    (dictSet r k v).lookup k' = if k' = k then some v else r.lookup k' := by
  unfold dictSet
  by_cases h : k ∈ r.map Prod.fst
  · rw [if_pos ((any_key_iff r k).mpr h)]
    by_cases hk : k' = k
    · subst hk; rw [if_pos rfl]; exact lookup_map_update_self r k' v h
    · rw [if_neg hk]; exact lookup_map_update_ne r k k' v hk
  · rw [if_neg (fun hc => h ((any_key_iff r k).mp hc)), lookup_append]
    by_cases hk : k' = k
    · subst hk
      rw [if_pos rfl, lookup_eq_none_of_not_mem_keys r k' h]
      simp [List.lookup]
    · rw [if_neg hk, List.lookup_cons, beq_false_of_ne hk]
      simp [List.lookup]

theorem keys_foldl (ps : List (String × Value)) :
    ∀ r : Record,
      ((ps.foldl (fun r kv => dictSet r kv.1 kv.2) r).map Prod.fst)
        = (ps.map Prod.fst).foldl dedupStep (r.map Prod.fst) := by
  induction ps with
  | nil => intro r; rfl
  | cons kv rest ih =>
    intro r
    simp only [List.foldl_cons, List.map_cons]
    rw [ih, keys_dictSet]

/-- The keys of a Python dict built from a pair list are the distinct
first components in order of first occurrence. -/
theorem keys_dictOfPairs (ps : List (String × Value)) :
    (dictOfPairs ps).map Prod.fst = dedupFirst (ps.map Prod.fst) :=
  keys_foldl ps []

theorem lookup_foldl (ps : List (String × Value)) :
    ∀ (r : Record) (k : String),
      ((ps.foldl (fun r kv => dictSet r kv.1 kv.2) r).lookup k)
        = (lastLookup ps k).or (r.lookup k) := by
  induction ps with
  | nil => intro r k; simp [lastLookup]
  | cons kv rest ih =>
    intro r k
    simp only [List.foldl_cons]
    rw [ih, lookup_dictSet]
    unfold lastLookup
    rw [List.reverse_cons, lookup_append, Option.or_assoc]
    by_cases hk : k = kv.1
    · rw [if_pos hk]
      have : ([kv].lookup k) = some kv.2 := by
        obtain ⟨a, b⟩ := kv
        subst hk
        simp [List.lookup]
      rw [this]
      rfl
    · rw [if_neg hk]
      have : ([kv].lookup k) = none := by
        obtain ⟨a, b⟩ := kv
        rw [List.lookup_cons, beq_false_of_ne hk]
        rfl
      rw [this]
      rfl

/-- The value a Python dict retains for a key is that of the key's last
occurrence in the pair list. -/
theorem lookup_dictOfPairs (ps : List (String × Value)) (k : String) :
    (dictOfPairs ps).lookup k = lastLookup ps k := by
  have := lookup_foldl ps [] k
  simpa [dictOfPairs] using this

theorem mem_foldl_dedupStep (l : List String) :
    ∀ (acc : List String) (x : String),
      x ∈ l.foldl dedupStep acc ↔ x ∈ acc ∨ x ∈ l := by
  induction l with
  | nil => simp
  | cons k ks ih =>
    intro acc x
    simp only [List.foldl_cons, ih, dedupStep, List.mem_cons]
    by_cases h : acc.contains k
    · rw [if_pos h]
      have hk : k ∈ acc := by simpa using h
      constructor
      · tauto
      · rintro (hx | rfl | hx)
        · exact Or.inl hx
        · exact Or.inl hk
        · exact Or.inr hx
    · rw [if_neg h]
      simp only [List.mem_append, List.mem_singleton]
      tauto

theorem mem_dedupFirst (l : List String) (x : String) :
    x ∈ dedupFirst l ↔ x ∈ l := by
  simpa [dedupFirst] using mem_foldl_dedupStep l [] x

theorem nodup_foldl_dedupStep (l : List String) :
    ∀ acc : List String, acc.Nodup → (l.foldl dedupStep acc).Nodup := by
  induction l with
  | nil => exact fun acc h => h
  | cons k ks ih =>
    intro acc hacc
    simp only [List.foldl_cons, dedupStep]
    by_cases h : acc.contains k
    · rw [if_pos h]; exact ih acc hacc
    · rw [if_neg h]
      refine ih _ ?_
      refine List.Nodup.append hacc (List.nodup_singleton k) ?_
      intro x hx hx'
      simp only [List.mem_singleton] at hx'
      subst hx'
      exact absurd (by simpa using hx) (by simpa using h)

/-- Python dict keys are distinct. -/
theorem dedupFirst_nodup (l : List String) : (dedupFirst l).Nodup :=
  nodup_foldl_dedupStep l [] List.nodup_nil

theorem foldl_dedupStep_of_nodup (l : List String) :
    ∀ acc : List String, l.Nodup → (∀ x ∈ l, x ∉ acc) →
      l.foldl dedupStep acc = acc ++ l := by
  induction l with
  | nil => simp
  | cons k ks ih =>
    intro acc hnd hdisj
    simp only [List.foldl_cons, dedupStep]
    rw [if_neg (by simpa using hdisj k (List.mem_cons_self k ks))]
    rw [ih (acc ++ [k]) (List.Nodup.of_cons hnd) ?_]
    · simp
    · intro x hx
      simp only [List.mem_append, List.mem_singleton]
      rintro (hc | hc)
      · exact hdisj x (List.mem_cons_of_mem k hx) hc
      · subst hc
        exact (List.nodup_cons.mp hnd).1 hx

/-- First-occurrence deduplication of a duplicate-free list is the list. -/
theorem dedupFirst_eq_self (l : List String) (h : l.Nodup) : dedupFirst l = l := by
  simpa [dedupFirst] using foldl_dedupStep_of_nodup l [] h (by simp)

theorem foldl_dedupStep_length_le (l : List String) :
    ∀ acc : List String, (l.foldl dedupStep acc).length ≤ acc.length + l.length := by
  induction l with
  | nil => simp
  | cons k ks ih =>
    intro acc
    simp only [List.foldl_cons, dedupStep, List.length_cons]
    by_cases h : acc.contains k
    · rw [if_pos h]
      exact (ih acc).trans (by omega)
    · rw [if_neg h]
      refine (ih (acc ++ [k])).trans ?_
      simp only [List.length_append, List.length_singleton]
      omega

theorem foldl_dedupStep_length_lt_of_mem (l : List String) :
    ∀ acc : List String, (∃ x, x ∈ l ∧ x ∈ acc) →
      (l.foldl dedupStep acc).length < acc.length + l.length := by
  induction l with
  | nil => rintro acc ⟨x, hx, _⟩; simp at hx
  | cons k ks ih =>
    rintro acc ⟨x, hxl, hxa⟩
    simp only [List.foldl_cons, dedupStep, List.length_cons]
    by_cases h : acc.contains k
    · rw [if_pos h]
      exact Nat.lt_succ_of_le ((foldl_dedupStep_length_le ks acc).trans (le_refl _))
    · rw [if_neg h]
      have hxk : x ≠ k := fun hc => (by simpa using h : k ∉ acc) (hc ▸ hxa)
      have hxks : x ∈ ks := by
        rcases List.mem_cons.mp hxl with hc | hc
        · exact absurd hc hxk
        · exact hc
      have := ih (acc ++ [k]) ⟨x, hxks, List.mem_append_left _ hxa⟩
      simp only [List.length_append, List.length_singleton] at this
      omega

theorem foldl_dedupStep_length_lt_of_not_nodup (l : List String) :
    ∀ acc : List String, ¬l.Nodup →
      (l.foldl dedupStep acc).length < acc.length + l.length := by
  induction l with
  | nil => intro acc h; exact absurd List.nodup_nil h
  | cons k ks ih =>
    intro acc h
    simp only [List.foldl_cons, dedupStep, List.length_cons]
    rcases Decidable.em (k ∈ ks) with hk | hk
    · by_cases hc : acc.contains k
      · rw [if_pos hc]
        exact Nat.lt_succ_of_le (foldl_dedupStep_length_le ks acc)
      · rw [if_neg hc]
        have := foldl_dedupStep_length_lt_of_mem ks (acc ++ [k])
          ⟨k, hk, List.mem_append_right _ (List.mem_singleton_self k)⟩
        simp only [List.length_append, List.length_singleton] at this
        omega
    · have hnd : ¬ks.Nodup := fun hc => h (List.nodup_cons.mpr ⟨hk, hc⟩)
      by_cases hc : acc.contains k
      · rw [if_pos hc]
        exact Nat.lt_succ_of_lt (ih acc hnd)
      · rw [if_neg hc]
        have := ih (acc ++ [k]) hnd
        simp only [List.length_append, List.length_singleton] at this
        omega

/-- A list with a repeated element strictly shrinks under first-occurrence
deduplication (a dict built over it has fewer keys than pairs). -/
theorem dedupFirst_length_lt (l : List String) (h : ¬l.Nodup) :
    (dedupFirst l).length < l.length := by
  simpa [dedupFirst] using foldl_dedupStep_length_lt_of_not_nodup l [] h

/-! ## Interpolated-quantile lemmas -/

theorem sorted_getD_mono {ys : List ℚ} (hs : ys.Sorted (fun a b : ℚ => a ≤ b))
    {j k : ℕ} (hjk : j ≤ k) (hk : k < ys.length) :
    ys.getD j 0 ≤ ys.getD k 0 := by
  have hj : j < ys.length := lt_of_le_of_lt hjk hk
  rw [List.getD_eq_get ys 0 hj, List.getD_eq_get ys 0 hk]
  exact hs.rel_get_of_le (Fin.mk_le_mk.mpr hjk)

/-- The lower bracketing index `⌊p*(n-1)⌋` of the interpolated quantile. -/
def qidx (ys : List ℚ) (p : ℚ) : ℕ :=
  (⌊p * ((ys.length : ℚ) - 1)⌋).toNat

theorem rank_nonneg {ys : List ℚ} {p : ℚ} (hne : ys ≠ []) (hp0 : 0 ≤ p) :
    0 ≤ p * ((ys.length : ℚ) - 1) := by
  have h1 : 1 ≤ ys.length := List.length_pos.mpr hne
  have : (1 : ℚ) ≤ (ys.length : ℚ) := by exact_mod_cast h1
  exact mul_nonneg hp0 (by linarith)

theorem rank_le_sub_one {ys : List ℚ} {p : ℚ} (hne : ys ≠ []) (hp1 : p ≤ 1) :
    p * ((ys.length : ℚ) - 1) ≤ (ys.length : ℚ) - 1 := by
  have h1 : 1 ≤ ys.length := List.length_pos.mpr hne
  have : (1 : ℚ) ≤ (ys.length : ℚ) := by exact_mod_cast h1
  exact mul_le_of_le_one_left (by linarith) hp1

theorem qidx_lt {ys : List ℚ} {p : ℚ} (hne : ys ≠ []) (hp0 : 0 ≤ p) (hp1 : p ≤ 1) :
    qidx ys p < ys.length := by
  have h1 : 1 ≤ ys.length := List.length_pos.mpr hne
  have hfl : ⌊p * ((ys.length : ℚ) - 1)⌋ ≤ (ys.length : ℤ) - 1 := by
    have h2 : (⌊p * ((ys.length : ℚ) - 1)⌋ : ℚ) ≤ (ys.length : ℚ) - 1 :=
      le_trans (Int.floor_le _) (rank_le_sub_one hne hp1)
    exact_mod_cast h2
  unfold qidx
  omega

theorem qidx_cast {ys : List ℚ} {p : ℚ} (hne : ys ≠ []) (hp0 : 0 ≤ p) :
    ((qidx ys p : ℚ)) = ((⌊p * ((ys.length : ℚ) - 1)⌋ : ℤ) : ℚ) := by
  have h0 : 0 ≤ ⌊p * ((ys.length : ℚ) - 1)⌋ :=
    Int.floor_nonneg.mpr (rank_nonneg hne hp0)
  unfold qidx
  exact_mod_cast congrArg (fun z : ℤ => (z : ℚ)) (Int.toNat_of_nonneg h0)

theorem frac_nonneg (h : ℚ) : 0 ≤ h - (⌊h⌋ : ℚ) := by
  have := Int.fract_nonneg h
  rwa [Int.fract] at this

theorem frac_lt_one (h : ℚ) : h - (⌊h⌋ : ℚ) < 1 := by
  have := Int.fract_lt_one h
  rwa [Int.fract] at this

theorem qval_eq_of_lt {ys : List ℚ} {p : ℚ} (hc : qidx ys p + 1 < ys.length) :
    qval ys p = ys.getD (qidx ys p) 0
      + (p * ((ys.length : ℚ) - 1) - (⌊p * ((ys.length : ℚ) - 1)⌋ : ℚ))
        * (ys.getD (qidx ys p + 1) 0 - ys.getD (qidx ys p) 0) := by
  simp only [qval, qidx] at *
  rw [if_pos hc]

theorem qval_eq_of_ge {ys : List ℚ} {p : ℚ} (hc : ¬(qidx ys p + 1 < ys.length)) :
    qval ys p = ys.getD (ys.length - 1) 0 := by
  simp only [qval, qidx] at *
  rw [if_neg hc]

theorem qval_lower {ys : List ℚ} {p : ℚ} (hs : ys.Sorted (fun a b : ℚ => a ≤ b))
    (hne : ys ≠ []) (hp0 : 0 ≤ p) (hp1 : p ≤ 1) :
    ys.getD (qidx ys p) 0 ≤ qval ys p := by
  by_cases hc : qidx ys p + 1 < ys.length
  · rw [qval_eq_of_lt hc]
    have hd : ys.getD (qidx ys p) 0 ≤ ys.getD (qidx ys p + 1) 0 :=
      sorted_getD_mono hs (Nat.le_succ _) hc
    have hg := frac_nonneg (p * ((ys.length : ℚ) - 1))
    nlinarith
  · rw [qval_eq_of_ge hc]
    have hlt := qidx_lt hne hp0 hp1
    exact sorted_getD_mono hs (by omega) (by omega)

theorem qval_upper_of_lt {ys : List ℚ} {p : ℚ} (hs : ys.Sorted (fun a b : ℚ => a ≤ b))
    (hc : qidx ys p + 1 < ys.length) :
    qval ys p ≤ ys.getD (qidx ys p + 1) 0 := by
  rw [qval_eq_of_lt hc]
  have hd : ys.getD (qidx ys p) 0 ≤ ys.getD (qidx ys p + 1) 0 :=
    sorted_getD_mono hs (Nat.le_succ _) hc
  have hg := frac_lt_one (p * ((ys.length : ℚ) - 1))
  have hg0 := frac_nonneg (p * ((ys.length : ℚ) - 1))
  nlinarith

theorem qval_upper {ys : List ℚ} {p : ℚ} (hs : ys.Sorted (fun a b : ℚ => a ≤ b)) :
    qval ys p ≤ ys.getD (ys.length - 1) 0 := by
  by_cases hc : qidx ys p + 1 < ys.length
  · refine (qval_upper_of_lt hs hc).trans ?_
    exact sorted_getD_mono hs (by omega) (by omega)
  · rw [qval_eq_of_ge hc]

theorem qidx_mono {ys : List ℚ} {p₁ p₂ : ℚ} (hne : ys ≠ [])
    (h12 : p₁ ≤ p₂) : qidx ys p₁ ≤ qidx ys p₂ := by
  have h1 : 1 ≤ ys.length := List.length_pos.mpr hne
  have hc : (1 : ℚ) ≤ (ys.length : ℚ) := by exact_mod_cast h1
  have hr : p₁ * ((ys.length : ℚ) - 1) ≤ p₂ * ((ys.length : ℚ) - 1) :=
    mul_le_mul_of_nonneg_right h12 (by linarith)
  unfold qidx
  exact Int.toNat_le_toNat (Int.floor_mono hr)

theorem qval_mono {ys : List ℚ} {p₁ p₂ : ℚ} (hs : ys.Sorted (fun a b : ℚ => a ≤ b))
    (hne : ys ≠ []) (h0 : 0 ≤ p₁) (h12 : p₁ ≤ p₂) (h21 : p₂ ≤ 1) :
    qval ys p₁ ≤ qval ys p₂ := by
  have h01 : p₁ ≤ 1 := h12.trans h21
  have h02 : 0 ≤ p₂ := h0.trans h12
  rcases Nat.lt_or_ge (qidx ys p₁) (qidx ys p₂) with hi | hi
  · -- strictly smaller lower index: chain through the order statistics
    have hlt2 := qidx_lt hne h02 h21
    by_cases hc : qidx ys p₁ + 1 < ys.length
    · calc qval ys p₁ ≤ ys.getD (qidx ys p₁ + 1) 0 := qval_upper_of_lt hs hc
        _ ≤ ys.getD (qidx ys p₂) 0 := sorted_getD_mono hs (by omega) hlt2
        _ ≤ qval ys p₂ := qval_lower hs hne h02 h21
    · have := qidx_lt hne h0 h01
      omega
  · -- equal indices (the index is monotone, so `≥` forces equality)
    have heq : qidx ys p₁ = qidx ys p₂ := le_antisymm (qidx_mono hne h12) hi
    by_cases hc : qidx ys p₁ + 1 < ys.length
    · rw [qval_eq_of_lt hc, qval_eq_of_lt (heq ▸ hc)]
      have hfl : ⌊p₁ * ((ys.length : ℚ) - 1)⌋ = ⌊p₂ * ((ys.length : ℚ) - 1)⌋ := by
        have c1 := @qidx_cast ys p₁ hne h0
        have c2 := @qidx_cast ys p₂ hne h02
        rw [heq] at c1
        have : ((⌊p₁ * ((ys.length : ℚ) - 1)⌋ : ℤ) : ℚ)
            = ((⌊p₂ * ((ys.length : ℚ) - 1)⌋ : ℤ) : ℚ) := by rw [← c1, ← c2]
        exact_mod_cast this
      rw [← heq, ← hfl]
      have h1 : 1 ≤ ys.length := List.length_pos.mpr hne
      have hcst : (1 : ℚ) ≤ (ys.length : ℚ) := by exact_mod_cast h1
      have hr : p₁ * ((ys.length : ℚ) - 1) ≤ p₂ * ((ys.length : ℚ) - 1) :=
        mul_le_mul_of_nonneg_right h12 (by linarith)
      have hd : ys.getD (qidx ys p₁) 0 ≤ ys.getD (qidx ys p₁ + 1) 0 :=
        sorted_getD_mono hs (Nat.le_succ _) hc
      nlinarith
    · rw [qval_eq_of_ge hc, qval_eq_of_ge (heq ▸ hc)]

theorem head?_eq_getD {ys : List ℚ} (h : ys ≠ []) :
    ys.head? = some (ys.getD 0 0) := by
  cases ys with
  | nil => simp at h
  | cons a l => simp [List.getD]

theorem getLast?_eq_getD {ys : List ℚ} (h : ys ≠ []) :
    ys.getLast? = some (ys.getD (ys.length - 1) 0) := by
  rw [List.getLast?_eq_getLast ys h, List.getLast_eq_get]
  rw [List.getD_eq_get ys 0 (by cases ys; simp at h; simp)]

theorem qval_zero {ys : List ℚ} (hne : ys ≠ []) : qval ys 0 = ys.getD 0 0 := by
  have hidx : qidx ys 0 = 0 := by unfold qidx; simp
  by_cases hc : qidx ys 0 + 1 < ys.length
  · rw [qval_eq_of_lt hc, hidx]
    simp
  · rw [qval_eq_of_ge hc]
    have h1 : 1 ≤ ys.length := List.length_pos.mpr hne
    congr 1
    omega

theorem qval_one {ys : List ℚ} (hne : ys ≠ []) :
    qval ys 1 = ys.getD (ys.length - 1) 0 := by
  have h1 : 1 ≤ ys.length := List.length_pos.mpr hne
  have hidx : qidx ys 1 = ys.length - 1 := by
    unfold qidx
    rw [one_mul,
      show ((ys.length : ℚ) - 1) = (((ys.length : ℤ) - 1 : ℤ) : ℚ) by push_cast; ring,
      Int.floor_intCast]
    omega
  rw [qval_eq_of_ge (by omega)]

theorem quantile_eq_some {ys : List ℚ} (h : ys ≠ []) (p : ℚ) :
    quantile ys p = some (qval ys p) := by
  unfold quantile
  rw [if_neg (by simpa using h)]

/-- The ordered chain of statistics of one summarized column: whenever the
column has at least one non-missing value, `min`, the three quartiles and
`max` are all present and satisfy
`min ≤ 25% ≤ 50% ≤ 75% ≤ max`, and the `50%` entry is the `median` entry. -/
theorem summarizeCol_chain (name : String) (vals : List (Option ℚ))
    (hc : 1 ≤ (summarizeCol name vals).count) :
    ∃ a b c d e,
      (summarizeCol name vals).min = some a ∧
      (summarizeCol name vals).q25 = some b ∧
      (summarizeCol name vals).q50 = some c ∧
      (summarizeCol name vals).q75 = some d ∧
      (summarizeCol name vals).max = some e ∧
      a ≤ b ∧ b ≤ c ∧ c ≤ d ∧ d ≤ e ∧
      (summarizeCol name vals).q50 = (summarizeCol name vals).median := by
  classical
  simp only [summarizeCol] at hc ⊢
  set xs := vals.filterMap id with hxs
  set ys := List.insertionSort (fun a b : ℚ => a ≤ b) xs with hys
  have hlen : ys.length = xs.length := List.length_insertionSort _ _
  have hne : ys ≠ [] := by
    have : 0 < ys.length := by omega
    exact List.ne_nil_of_length_pos this
  have hs : ys.Sorted (fun a b : ℚ => a ≤ b) := List.sorted_insertionSort _ _
  refine ⟨ys.getD 0 0, qval ys (1/4), qval ys (1/2), qval ys (3/4),
    ys.getD (ys.length - 1) 0, ?_, ?_, ?_, ?_, ?_, ?_, ?_, ?_, ?_, ?_⟩
  · exact head?_eq_getD hne
  · exact quantile_eq_some hne _
  · exact quantile_eq_some hne _
  · exact quantile_eq_some hne _
  · exact getLast?_eq_getD hne
  · rw [← qval_zero hne]
    exact qval_mono hs hne (by norm_num) (by norm_num) (by norm_num)
  · exact qval_mono hs hne (by norm_num) (by norm_num) (by norm_num)
  · exact qval_mono hs hne (by norm_num) (by norm_num) (by norm_num)
  · rw [← qval_one hne]
    exact qval_mono hs hne (by norm_num) (by norm_num) (by norm_num)
  · trivial

/-- Modelled from the spec (§4.2 and glossary): "the value at fractional
rank `p*(n-1)` in a sorted column, linearly interpolated between the two
bracketing order statistics" — the bracketing statistics being the entries
at positions `⌊r⌋` and `⌈r⌉` for rank `r = p*(n-1)`, weighted by the
fractional part of `r`. -/
def specInterpolatedPercentile (ys : List ℚ) (p : ℚ) : ℚ :=
  let r := p * ((ys.length : ℚ) - 1)
  let lo := ys.getD ((⌊r⌋).toNat) 0
  let hi := ys.getD ((⌈r⌉).toNat) 0
  lo + (r - (⌊r⌋ : ℚ)) * (hi - lo)

/-- The quantile the pipeline computes is exactly the spec's
interpolated percentile. -/
theorem qval_eq_specInterpolatedPercentile {ys : List ℚ} {p : ℚ}
    (hne : ys ≠ []) (hp0 : 0 ≤ p) (hp1 : p ≤ 1) :
    qval ys p = specInterpolatedPercentile ys p := by
  have h1 : 1 ≤ ys.length := List.length_pos.mpr hne
  have hilt := qidx_lt hne hp0 hp1
  simp only [specInterpolatedPercentile]
  set r := p * ((ys.length : ℚ) - 1) with hr
  by_cases hint : (⌊r⌋ : ℚ) = r
  · -- integral rank: zero fractional part, interpolation degenerates to `lo`
    have hceil : ⌈r⌉ = ⌊r⌋ := by
      conv_lhs => rw [← hint]
      exact Int.ceil_intCast _
    have hfrac : r - (⌊r⌋ : ℚ) = 0 := by rw [hint]; ring
    rw [hceil, hfrac]
    by_cases hc : qidx ys p + 1 < ys.length
    · rw [qval_eq_of_lt hc]
      unfold qidx
      rw [← hr, hfrac]
      ring
    · rw [qval_eq_of_ge hc]
      have hq : qidx ys p = ys.length - 1 := by omega
      unfold qidx at hq
      rw [← hr] at hq
      rw [hq]
      ring
  · -- non-integral rank: the upper bracket is `⌊r⌋ + 1` and it is in range
    have hflt : (⌊r⌋ : ℚ) < r := lt_of_le_of_ne (Int.floor_le r) hint
    have hceil : ⌈r⌉ = ⌊r⌋ + 1 := by
      refine le_antisymm (Int.ceil_le_floor_add_one r) ?_
      rw [Int.add_one_le_iff, Int.lt_ceil]
      exact hflt
    have hrle : r ≤ (ys.length : ℚ) - 1 := rank_le_sub_one hne hp1
    have hfl_lt : ⌊r⌋ < (ys.length : ℤ) - 1 := by
      have h2 : (⌊r⌋ : ℚ) < (ys.length : ℚ) - 1 := lt_of_lt_of_le hflt hrle
      exact_mod_cast h2
    have hfl0 : 0 ≤ ⌊r⌋ := Int.floor_nonneg.mpr (rank_nonneg hne hp0)
    have hc : qidx ys p + 1 < ys.length := by
      unfold qidx
      rw [← hr]
      omega
    rw [qval_eq_of_lt hc, hceil]
    unfold qidx
    rw [← hr]
    have h3 : (⌊r⌋ + 1).toNat = (⌊r⌋).toNat + 1 := by omega
    rw [h3]

/-! ## Summarizer pipeline lemmas -/

theorem length_filterMap_id (vals : List (Option ℚ)) :
    (vals.filterMap id).length = vals.countP (fun v => v.isSome) := by
  induction vals with
  | nil => rfl
  | cons v rest ih =>
    cases v <;> simp [List.filterMap_cons, List.countP_cons, ih]

theorem summarizeCol_metric (name : String) (vals : List (Option ℚ)) :
    (summarizeCol name vals).metric = name := rfl

theorem summarizeCol_count (name : String) (vals : List (Option ℚ)) :
    (summarizeCol name vals).count = vals.countP (fun v => v.isSome) :=
  length_filterMap_id vals

theorem summarizeCol_sum (name : String) (vals : List (Option ℚ)) :
    (summarizeCol name vals).sum = (vals.filterMap id).sum := rfl

theorem summarizeCol_mean_of_pos (name : String) (vals : List (Option ℚ))
    (h : (summarizeCol name vals).count ≠ 0) :
    (summarizeCol name vals).mean
      = some ((summarizeCol name vals).sum / ((summarizeCol name vals).count : ℚ)) := by
  simp only [summarizeCol] at h ⊢
  rw [if_neg h]

/-- Eliminating a successful run of the Summarizer: the returned list is
one summary per fixed column, in the fixed order. -/
theorem gmms_ok_elim {data : List Record} {recs : List MetricSummaryRecord}
    (h : generate_menu_metrics_summary data = .ok recs) :
    recs = continuous_cols.map (fun c => summarizeCol c (numColumn data c)) := by
  simp only [generate_menu_metrics_summary] at h
  by_cases h1 : (continuous_cols.all fun c => (dfColumns data).contains c) = true
  · rw [if_pos h1] at h
    by_cases h2 : (continuous_cols.any fun c => (column data c).any Value.isStr) = true
    · rw [if_pos h2] at h
      simp at h
    · rw [if_neg h2] at h
      exact (Except.ok.inj h).symm
  · rw [if_neg h1] at h
    simp at h

/-- A successful run of the Summarizer, from its two guards. -/
theorem gmms_ok_intro {data : List Record}
    (hall : ∀ c ∈ continuous_cols, c ∈ dfColumns data)
    (hnostr : ∀ c ∈ continuous_cols, ∀ v ∈ column data c, v.isStr = false) :
    generate_menu_metrics_summary data
      = .ok (continuous_cols.map (fun c => summarizeCol c (numColumn data c))) := by
  simp only [generate_menu_metrics_summary]
  rw [if_pos, if_neg]
  · intro hany
    rcases List.any_eq_true.mp hany with ⟨c, hc, hcs⟩
    rcases List.any_eq_true.mp hcs with ⟨v, hv, hstr⟩
    rw [hnostr c hc v hv] at hstr
    cases hstr
  · rw [List.all_eq_true]
    intro c hc
    exact List.elem_iff.mpr (hall c hc)

/-- A failing run of the Summarizer when a required column is missing
from the frame. -/
theorem gmms_keyError_intro {data : List Record} {c : String}
    (hc : c ∈ continuous_cols) (hmiss : c ∉ dfColumns data) :
    ∃ missing, generate_menu_metrics_summary data = .error (.keyError missing)
      ∧ c ∈ missing := by
  simp only [generate_menu_metrics_summary]
  rw [if_neg]
  · refine ⟨_, rfl, ?_⟩
    rw [List.mem_filter]
    refine ⟨hc, ?_⟩
    simp only [Bool.not_eq_eq_eq_not, Bool.not_true]
    rw [← Bool.not_eq_true]
    exact fun hcont => hmiss (List.elem_iff.mp hcont)
  · intro hall
    rcases List.all_eq_true.mp hall c hc with hcont
    exact hmiss (List.elem_iff.mp hcont)

/-! ## Concrete inputs used by witnesses and counterexamples -/

/-- The worked two-record example input of the spec (§8). -/
def exampleInput : List Record :=
  [[("Price", .num 100), ("Avg_Rating", .num 4), ("Total_Orders", .num 10),
    ("Last_Week_Sales", .num 2), ("Last_Month_Sales", .num 8)],
   [("Price", .num 200), ("Avg_Rating", .num 5), ("Total_Orders", .num 20),
    ("Last_Week_Sales", .num 4), ("Last_Month_Sales", .num 16)]]

/-- One record whose `Price` holds a string (a non-numeric value). -/
def typeErrInput : List Record :=
  [[("Price", .str "expensive"), ("Avg_Rating", .num 4), ("Total_Orders", .num 10),
    ("Last_Week_Sales", .num 2), ("Last_Month_Sales", .num 8)]]

/-- One record from which `Price` is absent (the other four fields present). -/
def noPriceInput : List Record :=
  [[("Avg_Rating", .num 4), ("Total_Orders", .num 10),
    ("Last_Week_Sales", .num 2), ("Last_Month_Sales", .num 8)]]

/-- Whether a Summarizer call returned a summary rather than raising. -/
def summarizerReturned (e : Except PyErr (List MetricSummaryRecord)) : Bool :=
  match e with
  | .ok _ => true
  | .error _ => false

/-- `UPDATE menu_items SET Price = 1 RETURNING Price` against a one-column
table: a data-mutating sqlite statement that *does* yield a result
descriptor (sqlite supports `RETURNING`), so `cur.description` is truthy. -/
def updateReturning : Statement :=
  { description := some [⟨"Price"⟩]
    rows := [[.num 1]]
    effect := fun db => db.map (fun _ => [Value.num 1]) }

/-- A plain `INSERT` (no `RETURNING`): mutation with no result descriptor. -/
def plainInsert : Statement :=
  { description := none
    rows := []
    effect := fun db => db ++ [[Value.num 7]] }

/-- `SELECT 1 AS x, 2 AS x`: a result descriptor with duplicate names. -/
def dupColsSelect : Statement :=
  { description := some [⟨"x"⟩, ⟨"x"⟩]
    rows := [[.num 1, .num 2]]
    effect := fun db => db }

/-- `SELECT 1 AS x` (the spec's §8 example query). -/
def selectOneX : Statement :=
  { description := some [⟨"x"⟩]
    rows := [[.num 1]]
    effect := fun db => db }

/-! ## Claims -/

/-- C1 (counterexample): the Summarizer does *not* return a degenerate
5-record summary on an empty input — it raises: `pd.DataFrame([])` has no
columns, so `df[continuous_cols]` raises `KeyError`. -/
theorem C1_counterexample :
    summarizerReturned (generate_menu_metrics_summary []) = false := rfl

/-- C1 (amended): calling the Metrics Summarizer on an empty input list
raises a `KeyError` listing all five required fields (the empty frame has
no columns), rather than returning five `count = 0` summary records. -/
theorem C1_empty_input_raises :
    generate_menu_metrics_summary [] = .error (.keyError continuous_cols) := rfl

/-- C2 (counterexample): on an input whose `Price` holds a string, the
Summarizer fails with the numeric library's plain `TypeError` (raised by
`df_numeric.median()` on the object-dtype column), not with a
TypeMismatchError naming the offending field and the record index. -/
theorem C2_counterexample :
    generate_menu_metrics_summary typeErrInput = .error .typeError
      ∧ PyErr.typeError.namesFieldAndIndex = false := ⟨rfl, rfl⟩

/-- C2 (amended): for every input in which all five required columns are
present and at least one of them holds a non-numeric (string) value, the
Summarizer fails with the numeric library's `TypeError` rather than
returning a summary; the raised error does not carry the record index. -/
theorem C2_nonnumeric_raises_typeError (data : List Record)
    (hall : ∀ c ∈ continuous_cols, c ∈ dfColumns data)
    (hstr : ∃ c ∈ continuous_cols, ∃ v ∈ column data c, v.isStr = true) :
    generate_menu_metrics_summary data = .error .typeError := by
  simp only [generate_menu_metrics_summary]
  rw [if_pos, if_pos]
  · rcases hstr with ⟨c, hc, v, hv, hs⟩
    exact List.any_eq_true.mpr ⟨c, hc, List.any_eq_true.mpr ⟨v, hv, hs⟩⟩
  · rw [List.all_eq_true]
    intro c hc
    exact List.elem_iff.mpr (hall c hc)

/-- C2 (witness): the amended theorem applied to the concrete one-record
input with a string `Price`. -/
theorem C2_witness :
    generate_menu_metrics_summary typeErrInput = .error .typeError :=
  C2_nonnumeric_raises_typeError typeErrInput (by decide) (by decide)

/-- C3 (counterexample): a data-mutating statement with a `RETURNING`
clause has a truthy cursor description, so the executor takes the fetch
branch and never commits; closing the per-call connection rolls the
mutation back.  Concretely, `UPDATE menu_items SET Price = 1 RETURNING
Price` changes the table contents, yet the durable store state after the
call is the unchanged original. -/
theorem C3_counterexample :
    updateReturning.effect [[Value.num 5]] ≠ [[Value.num 5]]
      ∧ (async_query_to_df [[Value.num 5]] updateReturning).2 = [[Value.num 5]] :=
  ⟨by decide, rfl⟩

/-- C3 (amended): a data-mutating statement is durably committed before
the call returns exactly when its execution yields no describable result
shape (the `conn.commit()` branch); a mutating statement that does yield a
result descriptor (e.g. one with `RETURNING`) is rolled back instead. -/
theorem C3_commit_without_descriptor (db : DBState) (stmt : Statement)
    (hdesc : descTruthy stmt.description = false) :
    (async_query_to_df db stmt).2 = stmt.effect db := by
  unfold async_query_to_df
  rw [if_neg]
  simp [hdesc]

/-- C3 (witness): the amended theorem at a plain `INSERT`, whose effect is
durable in the post-call store state. -/
theorem C3_witness :
    (async_query_to_df [] plainInsert).2 = plainInsert.effect [] :=
  C3_commit_without_descriptor [] plainInsert rfl

/-- C4: if one of the five required fields (here any required column `c`,
e.g. `Price`) is absent from every input record, the frame has no column
`c`, and `df[continuous_cols]` (line 82) raises `KeyError` naming the
missing field — before `describe`, `median` or `sum` is evaluated, and
without substituting any default for the field. -/
theorem C4_missing_field_raises (data : List Record) (c : String)
    (hc : c ∈ continuous_cols)
    (habsent : ∀ r ∈ data, c ∉ r.map Prod.fst) :
    ∃ missing, generate_menu_metrics_summary data = .error (.keyError missing)
      ∧ c ∈ missing := by
  refine gmms_keyError_intro hc ?_
  intro hmem
  unfold dfColumns at hmem
  rw [mem_dedupFirst] at hmem
  rcases List.mem_flatMap.mp hmem with ⟨r, hr, hk⟩
  exact habsent r hr hk

/-- C4 (witness): omitting `Price` from every record of a concrete
one-record input fails with a `KeyError` naming `Price`. -/
theorem C4_witness :
    ∃ missing, generate_menu_metrics_summary noPriceInput = .error (.keyError missing)
      ∧ "Price" ∈ missing :=
  C4_missing_field_raises noPriceInput "Price" (by decide) (by decide)

/-- C6: a statement with no describable result shape (falsy
`cur.description`) returns exactly the single acknowledgement record
`{"message": "Query executed successfully."}`, never mixed with rows. -/
theorem C6_ack_record (db : DBState) (stmt : Statement)
    (hdesc : descTruthy stmt.description = false) :
    (async_query_to_df db stmt).1
      = [[("message", Value.str "Query executed successfully.")]] := by
  unfold async_query_to_df
  rw [if_neg]
  simp [hdesc]

/-- C6 (witness): the acknowledgement shape at a concrete `INSERT`. -/
theorem C6_witness :
    (async_query_to_df [] plainInsert).1
      = [[("message", Value.str "Query executed successfully.")]] :=
  C6_ack_record [] plainInsert rfl

/-- C5 (counterexample): for `SELECT 1 AS x, 2 AS x` the result descriptor
lists two columns, both named `x`, but `dict(zip(cols, row))` collapses
them: the returned record's key list is `["x"]`, not the query's column
list `["x", "x"]`. -/
theorem C5_counterexample :
    ((async_query_to_df [] dupColsSelect).1).map (fun rec => rec.map Prod.fst)
        = [["x"]]
      ∧ (dupColsSelect.description.getD []).map DescCol.name = ["x", "x"]
      ∧ (["x"] : List String) ≠ ["x", "x"] :=
  ⟨rfl, rfl, by decide⟩

/-- C5 (amended): for every describable result whose rows each carry one
value per descriptor column, every returned record has the same key list,
namely the distinct column names in first-occurrence order; when the
column names are pairwise distinct this key list is exactly the query's
column list, in order. -/
theorem C5_record_keys (db : DBState) (stmt : Statement) (desc : List DescCol)
    (hdesc : stmt.description = some desc) (hne : desc ≠ [])
    (hlen : ∀ row ∈ stmt.rows, row.length = desc.length) :
    ∀ rec ∈ (async_query_to_df db stmt).1,
      rec.map Prod.fst = dedupFirst (desc.map DescCol.name)
        ∧ ((desc.map DescCol.name).Nodup →
            rec.map Prod.fst = desc.map DescCol.name) := by
  intro rec hrec
  unfold async_query_to_df at hrec
  rw [hdesc] at hrec
  rw [if_pos (by simpa [descTruthy] using hne)] at hrec
  simp only [Option.getD_some] at hrec
  rcases List.mem_map.mp hrec with ⟨row, hrow, hzip⟩
  have hcols : ((desc.map DescCol.name).zip row).map Prod.fst
      = desc.map DescCol.name := by
    refine List.map_fst_zip _ _ ?_
    rw [List.length_map, hlen row hrow]
  subst hzip
  constructor
  · rw [keys_dictOfPairs, hcols]
  · intro hnd
    rw [keys_dictOfPairs, hcols, dedupFirst_eq_self _ hnd]

/-- C5 (witness): the amended theorem at `SELECT 1 AS x`, whose single
record has key list exactly `["x"]`. -/
theorem C5_witness :
    ([("x", Value.num 1)] : Record).map Prod.fst
        = dedupFirst ([DescCol.mk "x"].map DescCol.name)
      ∧ (([DescCol.mk "x"].map DescCol.name).Nodup →
          ([("x", Value.num 1)] : Record).map Prod.fst
            = [DescCol.mk "x"].map DescCol.name) :=
  C5_record_keys [] selectOneX [⟨"x"⟩] rfl (by decide) (by decide)
    [("x", Value.num 1)] (List.mem_singleton_self _)

/-- C10: when the result descriptor contains duplicate column names, each
returned record is `dict(zip(cols, row))`: it holds exactly one key per
distinct column name — strictly fewer keys than descriptor columns — and
the value attached to a repeated name is the one of the *last* column
bearing that name in the row (later `dict` insertions overwrite earlier
ones). -/
theorem C10_duplicate_columns (db : DBState) (stmt : Statement) (desc : List DescCol)
    (hdesc : stmt.description = some desc) (hne : desc ≠ [])
    (hdup : ¬(desc.map DescCol.name).Nodup)
    (hlen : ∀ row ∈ stmt.rows, row.length = desc.length) :
    (async_query_to_df db stmt).1
        = stmt.rows.map (fun row => dictOfPairs ((desc.map DescCol.name).zip row))
      ∧ ∀ row ∈ stmt.rows,
          (dictOfPairs ((desc.map DescCol.name).zip row)).map Prod.fst
              = dedupFirst (desc.map DescCol.name)
            ∧ (dictOfPairs ((desc.map DescCol.name).zip row)).length < desc.length
            ∧ ∀ k : String,
                (dictOfPairs ((desc.map DescCol.name).zip row)).lookup k
                  = lastLookup ((desc.map DescCol.name).zip row) k := by
  constructor
  · unfold async_query_to_df
    rw [hdesc, if_pos (by simpa [descTruthy] using hne)]
    simp only [Option.getD_some]
  · intro row hrow
    have hcols : ((desc.map DescCol.name).zip row).map Prod.fst
        = desc.map DescCol.name := by
      refine List.map_fst_zip _ _ ?_
      rw [List.length_map, hlen row hrow]
    refine ⟨?_, ?_, fun k => lookup_dictOfPairs _ k⟩
    · rw [keys_dictOfPairs, hcols]
    · have hkeys : (dictOfPairs ((desc.map DescCol.name).zip row)).length
          = (dedupFirst (desc.map DescCol.name)).length := by
        have h4 := congrArg List.length
          (keys_dictOfPairs ((desc.map DescCol.name).zip row))
        rwa [List.length_map, hcols] at h4
      rw [hkeys]
      have := dedupFirst_length_lt _ hdup
      rwa [List.length_map] at this

/-- C10 (witness): the theorem at `SELECT 1 AS x, 2 AS x` with row
`(1, 2)`: the record is `{"x": 2}` — one key, value from the last `x`. -/
theorem C10_witness :
    (dictOfPairs ((([⟨"x"⟩, ⟨"x"⟩] : List DescCol).map DescCol.name).zip
          [Value.num 1, Value.num 2])).map Prod.fst
        = dedupFirst (([⟨"x"⟩, ⟨"x"⟩] : List DescCol).map DescCol.name)
      ∧ (dictOfPairs ((([⟨"x"⟩, ⟨"x"⟩] : List DescCol).map DescCol.name).zip
          [Value.num 1, Value.num 2])).length < 2
      ∧ (dictOfPairs ((([⟨"x"⟩, ⟨"x"⟩] : List DescCol).map DescCol.name).zip
          [Value.num 1, Value.num 2])).lookup "x"
        = lastLookup ((([⟨"x"⟩, ⟨"x"⟩] : List DescCol).map DescCol.name).zip
          [Value.num 1, Value.num 2]) "x" := by
  have h := C10_duplicate_columns [] dupColsSelect [⟨"x"⟩, ⟨"x"⟩] rfl
    (by decide) (by decide) (by decide)
  rcases h.2 [Value.num 1, Value.num 2] (List.mem_singleton_self _)
    with ⟨h1, h2, h3⟩
  exact ⟨h1, h2, h3 "x"⟩

/-- C8: in every summary the Summarizer returns, every record with
`count ≥ 1` has all five order statistics present and ordered,
`min ≤ 25% ≤ 50% ≤ 75% ≤ max`, and its `50%` entry equals its `median`
entry exactly (both are the same interpolated 0.5-quantile). -/
theorem C8_quartile_chain (data : List Record) (recs : List MetricSummaryRecord)
    (rec : MetricSummaryRecord)
    (hok : generate_menu_metrics_summary data = .ok recs)
    (hmem : rec ∈ recs) (hcount : 1 ≤ rec.count) :
    ∃ a b c d e,
      rec.min = some a ∧ rec.q25 = some b ∧ rec.q50 = some c ∧
      rec.q75 = some d ∧ rec.max = some e ∧
      a ≤ b ∧ b ≤ c ∧ c ≤ d ∧ d ≤ e ∧ rec.q50 = rec.median := by
  rw [gmms_ok_elim hok] at hmem
  rcases List.mem_map.mp hmem with ⟨c, hc, rfl⟩
  exact summarizeCol_chain c (numColumn data c) hcount

/-- C8 (witness): the chain at the `Price` record of the spec's worked
example. -/
theorem C8_quartile_chain_witness :
    ∃ a b c d e,
      (summarizeCol "Price" (numColumn exampleInput "Price")).min = some a ∧
      (summarizeCol "Price" (numColumn exampleInput "Price")).q25 = some b ∧
      (summarizeCol "Price" (numColumn exampleInput "Price")).q50 = some c ∧
      (summarizeCol "Price" (numColumn exampleInput "Price")).q75 = some d ∧
      (summarizeCol "Price" (numColumn exampleInput "Price")).max = some e ∧
      a ≤ b ∧ b ≤ c ∧ c ≤ d ∧ d ≤ e ∧
      (summarizeCol "Price" (numColumn exampleInput "Price")).q50
        = (summarizeCol "Price" (numColumn exampleInput "Price")).median :=
  C8_quartile_chain exampleInput
    (continuous_cols.map (fun c => summarizeCol c (numColumn exampleInput c)))
    (summarizeCol "Price" (numColumn exampleInput "Price"))
    rfl
    (List.mem_map.mpr ⟨"Price", by decide, rfl⟩)
    (by decide)

/-- The sorted non-missing values of one analyzed column — the sorted
column over which the quantiles are interpolated. -/
def sortedNonMissing (data : List Record) (c : String) : List ℚ :=
  List.insertionSort (fun a b : ℚ => a ≤ b) ((numColumn data c).filterMap id)

/-- C9: every reported percentile of a field with at least one
non-missing value is exactly the spec's interpolated percentile of the
sorted column: the value at fractional rank `p*(n-1)`, linearly
interpolated between the two bracketing order statistics, for
`p ∈ {0.25, 0.5, 0.75}` (and `median` is the `p = 0.5` case). -/
theorem C9_percentile_method (data : List Record) (recs : List MetricSummaryRecord)
    (rec : MetricSummaryRecord)
    (hok : generate_menu_metrics_summary data = .ok recs)
    (hmem : rec ∈ recs) (hcount : 1 ≤ rec.count) :
    rec.q25 = some (specInterpolatedPercentile (sortedNonMissing data rec.metric) (1/4))
      ∧ rec.q50 = some (specInterpolatedPercentile (sortedNonMissing data rec.metric) (1/2))
      ∧ rec.q75 = some (specInterpolatedPercentile (sortedNonMissing data rec.metric) (3/4))
      ∧ rec.median
          = some (specInterpolatedPercentile (sortedNonMissing data rec.metric) (1/2)) := by
  rw [gmms_ok_elim hok] at hmem
  rcases List.mem_map.mp hmem with ⟨c, hc, rfl⟩
  simp only [summarizeCol_metric]
  have hcnt : 1 ≤ ((numColumn data c).filterMap id).length := hcount
  have hne : sortedNonMissing data c ≠ [] := by
    have hlen : (sortedNonMissing data c).length
        = ((numColumn data c).filterMap id).length := List.length_insertionSort _ _
    intro hnil
    rw [hnil] at hlen
    simp only [List.length_nil] at hlen
    omega
  refine ⟨?_, ?_, ?_, ?_⟩
  · show quantile (sortedNonMissing data c) (1/4) = _
    rw [quantile_eq_some hne,
      qval_eq_specInterpolatedPercentile hne (by norm_num) (by norm_num)]
  · show quantile (sortedNonMissing data c) (1/2) = _
    rw [quantile_eq_some hne,
      qval_eq_specInterpolatedPercentile hne (by norm_num) (by norm_num)]
  · show quantile (sortedNonMissing data c) (3/4) = _
    rw [quantile_eq_some hne,
      qval_eq_specInterpolatedPercentile hne (by norm_num) (by norm_num)]
  · show quantile (sortedNonMissing data c) (1/2) = _
    rw [quantile_eq_some hne,
      qval_eq_specInterpolatedPercentile hne (by norm_num) (by norm_num)]

/-- C9 (witness): the percentile method at the `Price` record of the
spec's worked example. -/
theorem C9_percentile_method_witness :
    (summarizeCol "Price" (numColumn exampleInput "Price")).q25
        = some (specInterpolatedPercentile (sortedNonMissing exampleInput "Price") (1/4))
      ∧ (summarizeCol "Price" (numColumn exampleInput "Price")).q50
        = some (specInterpolatedPercentile (sortedNonMissing exampleInput "Price") (1/2))
      ∧ (summarizeCol "Price" (numColumn exampleInput "Price")).q75
        = some (specInterpolatedPercentile (sortedNonMissing exampleInput "Price") (3/4))
      ∧ (summarizeCol "Price" (numColumn exampleInput "Price")).median
        = some (specInterpolatedPercentile (sortedNonMissing exampleInput "Price") (1/2)) :=
  C9_percentile_method exampleInput
    (continuous_cols.map (fun c => summarizeCol c (numColumn exampleInput c)))
    (summarizeCol "Price" (numColumn exampleInput "Price"))
    rfl
    (List.mem_map.mpr ⟨"Price", by decide, rfl⟩)
    (by decide)

/-- C7: for every non-empty input whose records carry numeric values for
all five required fields, the Summarizer succeeds with five records; each
record's `count` is the number of non-missing values of its field (here
the full input length) and its `mean` equals `sum / count` — exactly, in
the rational model, hence within floating-point tolerance in the source.
In particular the spec's two-record worked example yields a `Price`
summary with `count=2, mean=150, min=100, max=200, median=150, sum=300`. -/
theorem C7_count_sum_mean (data : List Record)
    (hne : data ≠ [])
    (hvals : ∀ r ∈ data, ∀ c ∈ continuous_cols,
      ∃ q : ℚ, r.lookup c = some (Value.num q)) :
    ∃ recs, generate_menu_metrics_summary data = .ok recs ∧ recs.length = 5 ∧
      (∀ rec ∈ recs,
        rec.count = (numColumn data rec.metric).countP (fun v => v.isSome) ∧
        rec.count = data.length ∧
        rec.mean = some (rec.sum / (rec.count : ℚ))) ∧
      (∃ r rest, generate_menu_metrics_summary exampleInput = .ok (r :: rest) ∧
        r.metric = "Price" ∧ r.count = 2 ∧ r.mean = some 150 ∧ r.min = some 100 ∧
        r.max = some 200 ∧ r.median = some 150 ∧ r.sum = 300) := by
  have hall : ∀ c ∈ continuous_cols, c ∈ dfColumns data := by
    intro c hc
    rcases List.exists_mem_of_ne_nil data hne with ⟨r, hr⟩
    rcases hvals r hr c hc with ⟨q, hq⟩
    unfold dfColumns
    rw [mem_dedupFirst, List.mem_flatMap]
    refine ⟨r, hr, ?_⟩
    by_contra hkey
    rw [lookup_eq_none_of_not_mem_keys r c hkey] at hq
    cases hq
  have hnostr : ∀ c ∈ continuous_cols, ∀ v ∈ column data c, v.isStr = false := by
    intro c hc v hv
    rcases List.mem_map.mp hv with ⟨r, hr, hcell⟩
    rcases hvals r hr c hc with ⟨q, hq⟩
    rw [← hcell]
    unfold cell
    rw [hq]
    rfl
  refine ⟨_, gmms_ok_intro hall hnostr, by rfl, ?_, ?_⟩
  · intro rec hmem
    rcases List.mem_map.mp hmem with ⟨c, hc, rfl⟩
    simp only [summarizeCol_metric]
    have hcountP : (numColumn data c).countP (fun v => v.isSome) = data.length := by
      rw [List.countP_eq_length.mpr, numColumn, column, List.length_map, List.length_map]
      intro v hv
      rcases List.mem_map.mp hv with ⟨w, hw, hvw⟩
      rcases List.mem_map.mp hw with ⟨r, hr, hcell⟩
      rcases hvals r hr c hc with ⟨q, hq⟩
      subst hvw
      subst hcell
      unfold cell
      rw [hq]
      rfl
    refine ⟨summarizeCol_count c _, ?_, ?_⟩
    · rw [summarizeCol_count c _, hcountP]
    · refine summarizeCol_mean_of_pos c _ ?_
      rw [summarizeCol_count c _, hcountP]
      intro h0
      exact hne (List.length_eq_zero.mp h0)
  · refine ⟨_, _, rfl, ?_, ?_, ?_, ?_, ?_, ?_, ?_⟩ <;>
      norm_num [generate_menu_metrics_summary, summarizeCol, numColumn, column, cell,
        exampleInput, quantile, qval, List.insertionSort, List.orderedInsert,
        List.filterMap_cons, List.filterMap_nil]

/-- C7 (witness): the theorem applied to the spec's worked example input. -/
theorem C7_count_sum_mean_witness :
    ∃ recs, generate_menu_metrics_summary exampleInput = .ok recs ∧ recs.length = 5 ∧
      (∀ rec ∈ recs,
        rec.count = (numColumn exampleInput rec.metric).countP (fun v => v.isSome) ∧
        rec.count = exampleInput.length ∧
        rec.mean = some (rec.sum / (rec.count : ℚ))) ∧
      (∃ r rest, generate_menu_metrics_summary exampleInput = .ok (r :: rest) ∧
        r.metric = "Price" ∧ r.count = 2 ∧ r.mean = some 150 ∧ r.min = some 100 ∧
        r.max = some 200 ∧ r.median = some 150 ∧ r.sum = 300) :=
  C7_count_sum_mean exampleInput (by decide)
    (by intro r hr c hc; fin_cases hr <;> fin_cases hc <;> exact ⟨_, rfl⟩)
